import Mathlib

/-!
Verification of the OpenTex project-manager core (`app.py`): name
sanitization, path resolution, archive import, LaTeX compile
orchestration, git publishing, and file listings, modelled as pure
functions over `List Char` strings.  Filesystem state is modelled as
association lists (project name to directory contents, file name to
content); external processes are modelled by outcome oracles.
-/

/-- Strings are modelled as lists of characters. -/
abbrev Str := List Char

/-- Characters matched by Python's regex whitespace class `\s` (and by
`str.strip`) on ASCII input: space, tab, newline, carriage return,
vertical tab, form feed. -/
def isPySpace (c : Char) : Bool :=
  c == ' ' || c == '\t' || c == '\n' || c == '\r' || c.toNat == 11 || c.toNat == 12

/-- Characters kept by the substitution `re.sub(r'[^a-zA-Z0-9_.-]', '', s)`
in `sanitize_name`: ASCII letters, digits, underscore, dot, hyphen. -/
def keepChar (c : Char) : Bool :=
  if ('a' ≤ c ∧ c ≤ 'z') ∨ ('A' ≤ c ∧ c ≤ 'Z') ∨ ('0' ≤ c ∧ c ≤ '9')
      ∨ c = '_' ∨ c = '.' ∨ c = '-' then true else false

/-- Python `str.strip()`: drop leading and trailing whitespace. -/
def pyStrip (l : Str) : Str :=
  ((l.dropWhile isPySpace).reverse.dropWhile isPySpace).reverse

/-- Worker for `re.sub(r'\s+', '_', s)`: the flag records whether we are
inside a whitespace run whose `_` has already been emitted. -/
def collapseAux : Bool → Str → Str
  | _, [] => []
  | inWs, c :: rest =>
    if isPySpace c then
      if inWs then collapseAux true rest
      else '_' :: collapseAux true rest
    else c :: collapseAux false rest

/-- Python `re.sub(r'\s+', '_', s)`: replace each maximal whitespace run
by a single underscore. -/
def collapseWs (l : Str) : Str := collapseAux false l

/-- Python `'..' in s`: the two-dot string occurs as a substring. -/
def containsDotDot : Str → Bool
  | [] => false
  | c :: rest => (c == '.' && rest.head? == some '.') || containsDotDot rest

/-- Python `s.startswith(('/', '.'))`. -/
def startsSlashOrDot (s : Str) : Bool :=
  s.head? == some '/' || s.head? == some '.'

/-- The normalization pipeline of `sanitize_name` before its final
checks: strip, collapse whitespace runs to `_`, drop disallowed
characters. -/
def sanitizePipeline (name : Str) : Str :=
  (collapseWs (pyStrip name)).filter keepChar

/-- `sanitize_name` from `app.py` (lines 53-61).  `none` models Python's
`None` returns (falsy input, `..` present, or a `/`/`.` prefix); note
that the code can also return an empty *string*, which is falsy for its
callers but is not `None`. -/
def sanitize_name (name : Str) : Option Str :=
  if name = [] then none
  else if containsDotDot (sanitizePipeline name)
      || startsSlashOrDot (sanitizePipeline name) then none
  else some (sanitizePipeline name)

/-- Python truthiness of a `sanitize_name` result: not `None` and not
the empty string. -/
def truthy : Option Str → Bool
  | none => false
  | some s => !s.isEmpty

/-- `os.path.join a b` for POSIX paths with two components. -/
def osJoin (a b : Str) : Str :=
  if b.head? == some '/' then b
  else if a = [] ∨ a.getLast? = some '/' then a ++ b
  else a ++ '/' :: b

/-- `get_project_path` from `app.py` (lines 63-65): `None` when the
sanitized name is falsy, otherwise the join of the store root with the
sanitized name. -/
def get_project_path (root pn : Str) : Option Str :=
  match sanitize_name pn with
  | none => none
  | some s => if s.isEmpty then none else some (osJoin root s)

/-- `get_file_path` from `app.py` (lines 67-72). -/
def get_file_path (root pn fn : Str) : Option Str :=
  match get_project_path root pn, sanitize_name fn with
  | some pp, some sf => if sf.isEmpty then none else some (osJoin pp sf)
  | _, _ => none

/-- A good path segment: nonempty, slash-free, and not one of the
relative references `.` and `..` — exactly what makes
`parent ++ '/' :: seg` a direct child of `parent`. -/
def goodSeg (seg : Str) : Prop :=
  seg ≠ [] ∧ '/' ∉ seg ∧ seg ≠ ['.'] ∧ seg ≠ ['.', '.']

/-- `os.path.basename` for POSIX paths: the part after the last slash. -/
def basename (l : Str) : Str :=
  (l.reverse.takeWhile (fun c => !(c == '/'))).reverse

/-- Python `str.split('/')`. -/
def splitSlash : Str → List Str
  | [] => [[]]
  | c :: rest =>
    if c = '/' then [] :: splitSlash rest
    else
      let r := splitSlash rest
      (c :: r.headD []) :: r.tail

/-- Join path components with `/` (Python `sep.join`). -/
def joinSlash : List Str → Str
  | [] => []
  | [s] => s
  | s :: t :: rest => s ++ '/' :: joinSlash (t :: rest)

/-- The component filter inside `os.path.commonpath`: empty components
and `.` components are discarded before comparison. -/
def cleanParts (p : Str) : List Str :=
  (splitSlash p).filter (fun s => if s = [] ∨ s = ['.'] then false else true)

/-- Longest common prefix of two component lists. -/
def commonPrefixL : List Str → List Str → List Str
  | a :: as, b :: bs => if a = b then a :: commonPrefixL as bs else []
  | _, _ => []

/-- `os.path.commonpath([a, b])` for two POSIX paths of the same
absoluteness (the only way `upload_zip` calls it: `b` is built by
joining a relative segment onto `a`). -/
def pyCommonpath (a b : Str) : Str :=
  let pre : Str := if a.head? == some '/' then ['/'] else []
  pre ++ joinSlash (commonPrefixL (cleanParts a) (cleanParts b))

/-- A path on which `os.path.commonpath` round-trips: absolute, and
rebuilt exactly from its non-empty non-`.` components. -/
def cleanAbs (p : Str) : Prop :=
  p.head? = some '/' ∧ p = '/' :: joinSlash (cleanParts p)

/-- The base part of `os.path.splitext`: split off the extension at the
last dot of the final component, unless every character between the
last slash and that dot is itself a dot (leading dots never start an
extension). -/
def splitextBase (p : Str) : Str :=
  let r := p.reverse
  let a := r.takeWhile (fun c => !(c == '.'))
  match r.drop a.length with
  | [] => p
  | _ :: b =>
    if a.contains '/' then p
    else if (b.takeWhile (fun c => !(c == '/'))).any (fun c => !(c == '.')) then
      b.reverse
    else p

/-- Python `str.endswith('.zip')`. -/
def endsWithZip (l : Str) : Bool := l.reverse.take 4 == ['p', 'i', 'z', '.']

/-- Directory contents: file name to file content, no duplicate keys
once built through `fsWrite`. -/
abbrev FS := List (Str × Str)

/-- The project store: project name to directory contents. -/
abbrev Store := List (Str × FS)

/-- Write (create or overwrite) a key in an association list. -/
def fsWrite {β : Type} : List (Str × β) → Str → β → List (Str × β)
  | [], n, c => [(n, c)]
  | (m, d) :: rest, n, c =>
    if m = n then (n, c) :: rest else (m, d) :: fsWrite rest n c

/-- Association-list lookup. -/
def alookup {β : Type} : List (Str × β) → Str → Option β
  | [], _ => none
  | (m, d) :: rest, n => if m = n then some d else alookup rest n

/-- One archive member as `upload_zip` sees it: its stored name, the
directory flag, its bytes, and whether reading/writing it raises (the
injected failure used to state atomicity). -/
structure ZipEntry where
  filename : Str
  isDir : Bool
  content : Str
  readFails : Bool
deriving DecidableEq

/-- The member loop of `upload_zip` (`app.py` lines 147-158): flatten to
the base name, sanitize, skip falsy names, re-check confinement with
`os.path.commonpath`, then write; `none` models an exception raised
while reading or writing an accepted member. -/
def extractEntries (ppath : Str) : FS → List ZipEntry → Option FS
  | dir, [] => some dir
  | dir, e :: rest =>
    if e.isDir then extractEntries ppath dir rest
    else
      match sanitize_name (basename e.filename) with
      | none => extractEntries ppath dir rest
      | some safe =>
        if safe.isEmpty then extractEntries ppath dir rest
        else
          let tgt := osJoin ppath safe
          if pyCommonpath ppath tgt == ppath then
            if e.readFails then none
            else extractEntries ppath (fsWrite dir safe e.content) rest
          else extractEntries ppath dir rest

/-- Boundary outcomes of `upload_zip`. -/
inductive UploadResp where
  | noSelected
  | invalidType
  | invalidName
  | alreadyExists
  | serverError
  | uploaded (project : Str)
deriving DecidableEq

/-- `upload_zip` from `app.py` (lines 128-163).  `mkdirFails` injects a
failure of the eager `os.makedirs` (which sits *before* the
`try`: nothing is created and no cleanup runs); `archive = none` models
a byte stream `zipfile.ZipFile` rejects; a `none` from `extractEntries`
models an exception mid-extraction, after which the handler removes the
project directory before reporting the error, leaving the store as it
was. -/
def upload_zip (store : Store) (root fname : Str) (mkdirFails : Bool)
    (archive : Option (List ZipEntry)) : Store × UploadResp :=
  if fname.isEmpty then (store, .noSelected)
  else if !endsWithZip fname then (store, .invalidType)
  else
    match sanitize_name (splitextBase fname) with
    | none => (store, .invalidName)
    | some project =>
      if project.isEmpty then (store, .invalidName)
      else
        match alookup store project with
        | some _ => (store, .alreadyExists)
        | none =>
          if mkdirFails then (store, .serverError)
          else
            match archive with
            | none => (store, .serverError)
            | some entries =>
              match extractEntries (osJoin root project) [] entries with
              | none => (store, .serverError)
              | some dir => (fsWrite store project dir, .uploaded project)

/-- Outcome of one `subprocess.run` of the typesetter: its exit code,
whether the derived PDF exists on disk afterwards, and whether the call
raised (timeout or launch failure). -/
structure TexRun where
  rc : Int
  pdfExistsAfter : Bool
  raises : Bool

/-- Boundary outcomes of `compile_latex`. -/
inductive CompileResp where
  | notFound
  | serverError
  | notGenerated
  | sendPdf
deriving DecidableEq

/-- `compile_latex` from `app.py` (lines 270-292), after the request
parsing: run `pdflatex` once; if the PDF now exists, run it a second
time to resolve references; finish with `PDF not generated` when the
PDF is absent at the final check, and with the PDF itself otherwise.
Exit codes are never consulted. -/
def compile_latex (mainFound : Bool) (run1 run2 : TexRun) : CompileResp :=
  if !mainFound then .notFound
  else if run1.raises then .serverError
  else if run1.pdfExistsAfter then
    if run2.raises then .serverError
    else if run2.pdfExistsAfter then .sendPdf
    else .notGenerated
  else .notGenerated

/-- The stored git credential as `run_git_commands` reads it. -/
structure GitCfg where
  host : Str
  username : Str
  private_key_path : Str

/-- Outcome of one `subprocess.run` of git as the `run` helper reports
it (a launch failure or timeout is already folded into exit code 99 by
that helper). -/
structure StepOut where
  rc : Int
  out : Str
  err : Str

/-- An element of the `steps` list built by `run_git_commands`: either
an early configuration error record or a recorded command result. -/
inductive StepRec where
  | errMsg (msg : Str)
  | ran (cmd : List Str) (rc : Int) (out err : Str)
deriving DecidableEq

/-- Result of `run_git_commands`. -/
structure GitResult where
  ok : Bool
  steps : List StepRec
deriving DecidableEq

def initCmd : List Str := ["git".toList, "init".toList, "-b".toList, "main".toList]

def branchCmd : List Str := ["git".toList, "branch".toList, "-M".toList, "main".toList]

def cfgNameCmd (u : Str) : List Str :=
  ["git".toList, "config".toList, "user.name".toList, u]

def cfgEmailCmd (u h : Str) : List Str :=
  ["git".toList, "config".toList, "user.email".toList, u ++ '@' :: h]

def addCmd : List Str := ["git".toList, "add".toList, ".".toList]

def commitCmd : List Str :=
  ["git".toList, "commit".toList, "-m".toList, "Auto commit from OpenTex Editor".toList]

def rmRemoteCmd : List Str :=
  ["git".toList, "remote".toList, "remove".toList, "origin".toList]

/-- `git@<host>:<username>/<project>-tex.git`. -/
def remoteUrl (c : GitCfg) (pname : Str) : Str :=
  "git@".toList ++ c.host ++ ':' :: c.username ++ '/' :: pname ++ "-tex.git".toList

def addRemoteCmd (c : GitCfg) (pname : Str) : List Str :=
  ["git".toList, "remote".toList, "add".toList, "origin".toList, remoteUrl c pname]

def pushCmd : List Str :=
  ["git".toList, "push".toList, "-u".toList, "origin".toList, "main".toList]

/-- Build the recorded step for a command under the oracle `exec`. -/
def recordStep (exec : List Str → StepOut) (cmd : List Str) : StepRec :=
  StepRec.ran cmd (exec cmd).rc (exec cmd).out (exec cmd).err

/-- The tail of the publish sequence (`app.py` lines 368-388), reached
once init has succeeded or `.git` already existed: the two identity
commands and the `remote remove` are executed but their results are
discarded; `add`, `commit`, `remote add` and `push` are appended to
`steps`; `ok` is the push exit code being zero. -/
def gitTail (c : GitCfg) (pname : Str) (exec : List Str → StepOut) :
    Bool × List StepRec :=
  let rAdd := recordStep exec addCmd
  let rCommit := recordStep exec commitCmd
  let rRemote := recordStep exec (addRemoteCmd c pname)
  let rPush := recordStep exec pushCmd
  ((exec pushCmd).rc == 0, [rAdd, rCommit, rRemote, rPush])

/-- `run_git_commands` from `app.py` (lines 331-388).  `hasGit` is the
`os.path.exists(project_path/.git)` test; `exec` is the outcome oracle
for the git subprocess invocations. -/
def run_git_commands (hasGit : Bool) (cfg : Option GitCfg) (pname : Str)
    (exec : List Str → StepOut) : GitResult :=
  match cfg with
  | none => ⟨false, [.errMsg "Git config / private key not set.".toList]⟩
  | some c =>
    if c.private_key_path = [] then
      ⟨false, [.errMsg "Git config / private key not set.".toList]⟩
    else if c.host = [] ∨ c.username = [] then
      ⟨false, [.errMsg "Git host/username not configured.".toList]⟩
    else if hasGit then
      let t := gitTail c pname exec
      ⟨t.1, t.2⟩
    else
      let r := recordStep exec initCmd
      if (exec initCmd).rc ≠ 0 then ⟨false, [r]⟩
      else
        let t := gitTail c pname exec
        ⟨t.1, r :: t.2⟩

/-- Boundary outcomes of the save branch of `file_get_or_save`. -/
inductive SaveResp where
  | invalidPath
  | ioError
  | saved
deriving DecidableEq

/-- The POST branch of `file_get_or_save` (`app.py` lines 257-267):
resolve the file path (rejecting falsy sanitized names), then write the
request body, creating or overwriting the target file; the only failure
left is the `open` itself (modelled: the project directory is absent),
reported as a 500.  No check of the target file's existence is made. -/
def file_save (store : Store) (pn fn body : Str) : Store × SaveResp :=
  match sanitize_name pn, sanitize_name fn with
  | some sp, some sf =>
    if sp.isEmpty ∨ sf.isEmpty then (store, .invalidPath)
    else
      match alookup store sp with
      | none => (store, .ioError)
      | some dir => (fsWrite store sp (fsWrite dir sf body), .saved)
  | _, _ => (store, .invalidPath)

/-- Python `str.endswith('.tex')`. -/
def endsWithTex (l : Str) : Bool := l.reverse.take 4 == ['x', 'e', 't', '.']

/-- The listing loop shared by `project_get_or_delete` (lines 172-175)
and `project_files_create_delete` (lines 208-211): scan the directory
entries in order, prepending `.tex` names (`files.insert(0, ...)`) and
appending all other names. -/
def listProjectFiles (names : List Str) : List Str :=
  names.foldl (fun files n => if endsWithTex n then n :: files else files ++ [n]) []

/-! Helper lemmas about `sanitize_name`. -/

theorem sanitize_eq_some {n s : Str} (h : sanitize_name n = some s) :
    n ≠ [] ∧ s = sanitizePipeline n ∧ containsDotDot s = false ∧
      startsSlashOrDot s = false := by
  unfold sanitize_name at h
  split at h
  · exact absurd h (by simp)
  next h0 =>
    split at h
    next hb => exact absurd h (by simp)
    next hb =>
      injection h with h
      subst h
      simp only [Bool.or_eq_true, not_or, Bool.not_eq_true] at hb
      exact ⟨h0, rfl, hb.1, hb.2⟩

theorem sanitize_no_slash {n s : Str} (h : sanitize_name n = some s) : '/' ∉ s := by
  obtain ⟨-, hs, -, -⟩ := sanitize_eq_some h
  subst hs
  intro hmem
  have hk : keepChar '/' = true := List.of_mem_filter hmem
  exact absurd hk (by decide)

theorem sanitize_head {n s : Str} (h : sanitize_name n = some s) :
    s.head? ≠ some '.' ∧ s.head? ≠ some '/' := by
  obtain ⟨-, -, -, hs⟩ := sanitize_eq_some h
  unfold startsSlashOrDot at hs
  simp only [Bool.or_eq_false_iff, beq_eq_false_iff_ne, ne_eq] at hs
  exact ⟨hs.2, hs.1⟩

theorem sanitize_goodSeg {n s : Str} (h : sanitize_name n = some s)
    (hne : ¬s.isEmpty = true) : goodSeg s := by
  obtain ⟨hd, -⟩ := sanitize_head h
  refine ⟨by simpa [List.isEmpty_iff] using hne, sanitize_no_slash h, ?_, ?_⟩
  · rintro rfl; exact hd rfl
  · rintro rfl; exact hd rfl

/-- C3: `sanitize_name` trims surrounding whitespace, collapses each
internal whitespace run to one `_`, strips every character outside
`[A-Za-z0-9_.-]` (the `sanitizePipeline`), and yields a truthy SafeName
exactly when the processed result is nonempty, does not contain `..`,
and does not start with `/` or `.`. -/
theorem c3_sanitize_characterization (raw : Str) :
    (∀ s, sanitize_name raw = some s → s = sanitizePipeline raw) ∧
    (truthy (sanitize_name raw) = true ↔
      (sanitizePipeline raw ≠ [] ∧ containsDotDot (sanitizePipeline raw) = false ∧
        startsSlashOrDot (sanitizePipeline raw) = false)) := by
  refine ⟨fun s hs => (sanitize_eq_some hs).2.1, ?_⟩
  unfold sanitize_name
  by_cases h0 : raw = []
  · subst h0
    have hpipe : sanitizePipeline ([] : Str) = [] := rfl
    simp [truthy, hpipe]
  · rw [if_neg h0]
    by_cases hb : (containsDotDot (sanitizePipeline raw)
        || startsSlashOrDot (sanitizePipeline raw)) = true
    · rw [if_pos hb]
      simp only [Bool.or_eq_true] at hb
      constructor
      · intro h; exact absurd h (by simp [truthy])
      · rintro ⟨-, hc, hsd⟩
        rcases hb with hb | hb
        · rw [hb] at hc; cases hc
        · rw [hsd] at hb; cases hb
    · rw [if_neg hb]
      simp only [Bool.or_eq_true, not_or, Bool.not_eq_true] at hb
      simp [truthy, hb.1, hb.2, List.isEmpty_eq_false]

/-- C3 witness: concrete evaluation of both conjuncts at `" My Paper!"`. -/
theorem c3_sanitize_characterization_witness :
    "My_Paper".toList = sanitizePipeline " My Paper!".toList ∧
      truthy (sanitize_name " My Paper!".toList) = true :=
  ⟨(c3_sanitize_characterization " My Paper!".toList).1 "My_Paper".toList (by decide),
   (c3_sanitize_characterization " My Paper!".toList).2.mpr
     ⟨by decide, by decide, by decide⟩⟩

/-! Helper lemmas for C4: a contiguous `..` in the raw input survives
stripping, whitespace collapsing and character filtering. -/

theorem dropWhile_dotdot (x y : Str) :
    ∃ x', List.dropWhile isPySpace (x ++ '.' :: '.' :: y) = x' ++ '.' :: '.' :: y := by
  induction x with
  | nil =>
    refine ⟨[], ?_⟩
    simp [List.dropWhile_cons, show isPySpace '.' = false from by decide]
  | cons c x ih =>
    rcases ih with ⟨x', hx'⟩
    by_cases hc : isPySpace c = true
    · exact ⟨x', by simp [List.dropWhile_cons, hc, hx']⟩
    · exact ⟨c :: x, by simp [List.dropWhile_cons, hc]⟩

theorem pyStrip_dotdot (x y : Str) :
    ∃ x' y', pyStrip (x ++ '.' :: '.' :: y) = x' ++ '.' :: '.' :: y' := by
  unfold pyStrip
  obtain ⟨x1, h1⟩ := dropWhile_dotdot x y
  rw [h1]
  have hrev : (x1 ++ '.' :: '.' :: y).reverse = y.reverse ++ '.' :: '.' :: x1.reverse := by
    simp
  rw [hrev]
  obtain ⟨y1, h2⟩ := dropWhile_dotdot y.reverse x1.reverse
  rw [h2]
  refine ⟨x1, y1.reverse, ?_⟩
  simp

theorem collapseAux_dotdot (x : Str) : ∀ (b : Bool) (y : Str),
    ∃ x' y', collapseAux b (x ++ '.' :: '.' :: y) = x' ++ '.' :: '.' :: y' := by
  induction x with
  | nil =>
    intro b y
    refine ⟨[], collapseAux false y, ?_⟩
    show collapseAux b ('.' :: '.' :: y) = _
    simp [collapseAux, show isPySpace '.' = false from by decide]
  | cons c x ih =>
    intro b y
    by_cases hc : isPySpace c = true
    · obtain ⟨x', y', h⟩ := ih true y
      cases b with
      | false => exact ⟨'_' :: x', y', by simp [collapseAux, hc, h]⟩
      | true => exact ⟨x', y', by simp [collapseAux, hc, h]⟩
    · obtain ⟨x', y', h⟩ := ih false y
      exact ⟨c :: x', y', by simp [collapseAux, hc, h]⟩

theorem containsDotDot_append (x y : Str) :
    containsDotDot (x ++ '.' :: '.' :: y) = true := by
  induction x with
  | nil => simp [containsDotDot]
  | cons c x ih => simp [containsDotDot, ih]

theorem pipeline_dotdot (x y : Str) :
    ∃ x' y', sanitizePipeline (x ++ '.' :: '.' :: y) = x' ++ '.' :: '.' :: y' := by
  unfold sanitizePipeline collapseWs
  obtain ⟨x1, y1, h1⟩ := pyStrip_dotdot x y
  rw [h1]
  obtain ⟨x2, y2, h2⟩ := collapseAux_dotdot x1 false y1
  rw [h2]
  refine ⟨x2.filter keepChar, y2.filter keepChar, ?_⟩
  have hdots : List.filter keepChar ('.' :: '.' :: y2) = '.' :: '.' :: y2.filter keepChar := by
    simp [List.filter_cons, show keepChar '.' = true from by decide]
  rw [List.filter_append, hdots]

theorem dotdot_rejected (x y : Str) : sanitize_name (x ++ '.' :: '.' :: y) = none := by
  have hc : containsDotDot (sanitizePipeline (x ++ '.' :: '.' :: y)) = true := by
    obtain ⟨x', y', h⟩ := pipeline_dotdot x y
    rw [h]
    exact containsDotDot_append x' y'
  unfold sanitize_name
  rw [if_neg (by simp), if_pos (by rw [hc]; simp)]

/-- C4: every raw string containing the substring `../../etc/passwd` is
rejected by `sanitize_name` (it returns `None`, so no SafeName is
produced). -/
theorem c4_passwd_rejected (raw x y : Str)
    (h : raw = x ++ ("../../etc/passwd".toList ++ y)) :
    sanitize_name raw = none := by
  subst h
  have hshape : x ++ ("../../etc/passwd".toList ++ y) =
      x ++ '.' :: '.' :: ("/../etc/passwd".toList ++ y) := rfl
  rw [hshape]
  exact dotdot_rejected x _

/-- C4 witness: the theorem applied to the string `../../etc/passwd`
itself. -/
theorem c4_passwd_rejected_witness :
    sanitize_name "../../etc/passwd".toList = none :=
  c4_passwd_rejected "../../etc/passwd".toList [] [] (by simp)

/-! Helper lemmas for path confinement (C1, C2). -/

theorem head_ne_of_not_mem {c : Char} {l : Str} (h : c ∉ l) : l.head? ≠ some c := by
  cases l with
  | nil => simp
  | cons a l =>
    simp only [List.head?_cons, ne_eq, Option.some.injEq]
    rintro rfl
    exact h (List.mem_cons_self a l)

theorem goodSeg_getLast {seg : Str} (hg : goodSeg seg) : seg.getLast? ≠ some '/' := by
  obtain ⟨-, hnm, -, -⟩ := hg
  intro h
  obtain ⟨hne, heq⟩ := List.mem_getLast?_eq_getLast (Option.mem_def.mpr h)
  exact hnm (heq ▸ List.getLast_mem hne)

theorem osJoin_child {parent seg : Str} (hp : parent ≠ [])
    (hl : parent.getLast? ≠ some '/') (hs : seg.head? ≠ some '/') :
    osJoin parent seg = parent ++ '/' :: seg := by
  unfold osJoin
  rw [if_neg (by simpa using hs), if_neg]
  rintro (h | h)
  · exact hp h
  · exact hl h

theorem project_child {root pn p : Str} (hroot : root ≠ [])
    (hlast : root.getLast? ≠ some '/') (hp : get_project_path root pn = some p) :
    ∃ seg, p = root ++ '/' :: seg ∧ goodSeg seg := by
  unfold get_project_path at hp
  split at hp
  · cases hp
  next s hsan =>
    split at hp
    · cases hp
    next hse =>
      injection hp with hp
      subst hp
      exact ⟨s, osJoin_child hroot hlast (sanitize_head hsan).2,
        sanitize_goodSeg hsan hse⟩

/-- C1: for every raw project name accepted by sanitization the path
from `get_project_path` is a direct child of the store root, and for
every accepted file name the path from `get_file_path` is a direct
child of that project directory: resolved paths never escape their
intended parent. -/
theorem c1_path_confinement (root pn fn : Str)
    (hroot : root ≠ []) (hlast : root.getLast? ≠ some '/') :
    (∀ p, get_project_path root pn = some p →
        ∃ seg, p = root ++ '/' :: seg ∧ goodSeg seg) ∧
    (∀ q, get_file_path root pn fn = some q →
        ∃ pp fseg, get_project_path root pn = some pp ∧
          q = pp ++ '/' :: fseg ∧ goodSeg fseg) := by
  refine ⟨fun p hp => project_child hroot hlast hp, fun q hq => ?_⟩
  unfold get_file_path at hq
  split at hq
  all_goals try cases hq
  next pp sf hpp hsf =>
    split at hq
    · cases hq
    next hse =>
      injection hq with hq
      subst hq
      obtain ⟨seg, hpeq, hgood⟩ := project_child hroot hlast hpp
      have hppne : pp ≠ [] := by
        rw [hpeq]; simp
      have hpplast : pp.getLast? ≠ some '/' := by
        rw [hpeq, List.getLast?_append_of_ne_nil root (by simp)]
        have hcs : ('/' :: seg).getLast? = seg.getLast? := by
          have := List.getLast?_append_of_ne_nil ['/'] hgood.1
          simpa using this
        rw [hcs]
        exact goodSeg_getLast hgood
      exact ⟨pp, sf, hpp, osJoin_child hppne hpplast (sanitize_head hsf).2,
        sanitize_goodSeg hsf hse⟩

/-- C1 witness: confinement evaluated for the store root
`/app/projects`, project `doc`, file `a.tex`. -/
theorem c1_path_confinement_witness :
    (∃ seg, "/app/projects/doc".toList = "/app/projects".toList ++ '/' :: seg ∧
      goodSeg seg) ∧
    (∃ pp fseg, get_project_path "/app/projects".toList "doc".toList = some pp ∧
      "/app/projects/doc/a.tex".toList = pp ++ '/' :: fseg ∧ goodSeg fseg) :=
  ⟨(c1_path_confinement "/app/projects".toList "doc".toList "a.tex".toList
      (by decide) (by decide)).1 "/app/projects/doc".toList (by decide),
   (c1_path_confinement "/app/projects".toList "doc".toList "a.tex".toList
      (by decide) (by decide)).2 "/app/projects/doc/a.tex".toList (by decide)⟩

/-- C6: compile success is determined solely by the post-hoc existence
of the PDF artifact, never by the typesetter's exit code: with no
exception raised, the result is the PDF exactly when the artifact is
present after the attempted passes, the build-failed response appears
exactly when it is absent, and the whole outcome is invariant under
arbitrary changes of both exit codes. -/
theorem c6_compile_artifact_only (run1 run2 : TexRun)
    (h1 : run1.raises = false) (h2 : run2.raises = false) :
    (compile_latex true run1 run2 = .sendPdf ↔
      (run1.pdfExistsAfter = true ∧ run2.pdfExistsAfter = true)) ∧
    (compile_latex true run1 run2 = .notGenerated ↔
      ¬(run1.pdfExistsAfter = true ∧ run2.pdfExistsAfter = true)) ∧
    (∀ e1 e2 : Int, compile_latex true { run1 with rc := e1 } { run2 with rc := e2 } =
      compile_latex true run1 run2) := by
  obtain ⟨rc1, p1, r1⟩ := run1
  obtain ⟨rc2, p2, r2⟩ := run2
  simp only at h1 h2
  subst h1 h2
  cases p1 <;> cases p2 <;> simp [compile_latex]

/-- C6 witness: both passes exit non-zero yet leave the PDF on disk;
the response is the PDF. -/
theorem c6_compile_artifact_only_witness :
    compile_latex true ⟨1, true, false⟩ ⟨2, true, false⟩ = .sendPdf :=
  ((c6_compile_artifact_only ⟨1, true, false⟩ ⟨2, true, false⟩ rfl rfl).1).mpr
    ⟨rfl, rfl⟩

/-! Helper lemma for C9. -/

theorem alookup_fsWrite {β : Type} (d : List (Str × β)) (k : Str) (v : β) :
    alookup (fsWrite d k v) k = some v := by
  induction d with
  | nil => simp [fsWrite, alookup]
  | cons kv rest ih =>
    obtain ⟨m, c⟩ := kv
    by_cases hm : m = k
    · simp [fsWrite, hm, alookup]
    · simp [fsWrite, hm, alookup, ih]

/-- C9: once both names pass sanitization (truthy results) and the
project directory exists, the save branch of `file_get_or_save` writes
the request body unconditionally — it succeeds whether or not the
target file exists, and afterwards the file holds exactly the body;
no not-found or already-exists check is made on the target file. -/
theorem c9_save_unconditional (store : Store) (pn fn body sp sf : Str) (dir : FS)
    (hp : sanitize_name pn = some sp) (hpne : sp.isEmpty = false)
    (hf : sanitize_name fn = some sf) (hfne : sf.isEmpty = false)
    (hdir : alookup store sp = some dir) :
    file_save store pn fn body = (fsWrite store sp (fsWrite dir sf body), .saved) ∧
      alookup (fsWrite dir sf body) sf = some body := by
  refine ⟨?_, alookup_fsWrite dir sf body⟩
  unfold file_save
  rw [hp, hf]
  simp only [hpne, hfne]
  rw [if_neg (by simp), hdir]

/-- C9 witness: saving `a.tex` in project `doc` overwrites existing
content, applied at a store where the file already exists. -/
theorem c9_save_unconditional_witness :
    file_save [("doc".toList, [("a.tex".toList, "old".toList)])]
        "doc".toList "a.tex".toList "new".toList =
      ([("doc".toList, [("a.tex".toList, "new".toList)])], .saved) ∧
    alookup [("a.tex".toList, "new".toList)] "a.tex".toList = some "new".toList := by
  have h := c9_save_unconditional
    [("doc".toList, [("a.tex".toList, "old".toList)])]
    "doc".toList "a.tex".toList "new".toList "doc".toList "a.tex".toList
    [("a.tex".toList, "old".toList)] (by decide) (by decide) (by decide) (by decide)
    (by decide)
  exact ⟨by rw [h.1]; decide, h.2⟩

/-! Helper lemma for C10. -/

theorem listFiles_split_aux (names : List Str) : ∀ t u : List Str,
    (∀ n ∈ t, endsWithTex n = true) → (∀ n ∈ u, endsWithTex n = false) →
    ∃ t' u',
      names.foldl (fun files n => if endsWithTex n then n :: files else files ++ [n])
          (t ++ u) = t' ++ u' ∧
        (∀ n ∈ t', endsWithTex n = true) ∧ (∀ n ∈ u', endsWithTex n = false) := by
  induction names with
  | nil => exact fun t u ht hu => ⟨t, u, rfl, ht, hu⟩
  | cons n names ih =>
    intro t u ht hu
    by_cases hn : endsWithTex n = true
    · have hstep : (if endsWithTex n then n :: (t ++ u) else (t ++ u) ++ [n]) =
          (n :: t) ++ u := by rw [if_pos hn]; rfl
      rw [List.foldl_cons, hstep]
      refine ih (n :: t) u ?_ hu
      intro m hm
      rcases List.mem_cons.mp hm with h | h
      · exact h ▸ hn
      · exact ht m h
    · have hstep : (if endsWithTex n then n :: (t ++ u) else (t ++ u) ++ [n]) =
          t ++ (u ++ [n]) := by
        rw [if_neg hn, List.append_assoc]
      rw [List.foldl_cons, hstep]
      refine ih t (u ++ [n]) ht ?_
      intro m hm
      rcases List.mem_append.mp hm with h | h
      · exact hu m h
      · rw [List.mem_singleton.mp h]
        exact Bool.not_eq_true _ ▸ (Bool.of_not_eq_true hn)

/-- C10: in every file listing produced by the shared listing loop,
every name ending in `.tex` appears before every name that does not:
the result splits as a block of `.tex` names followed by a block of
non-`.tex` names. -/
theorem c10_tex_files_first (names : List Str) :
    ∃ t u, listProjectFiles names = t ++ u ∧
      (∀ n ∈ t, endsWithTex n = true) ∧ (∀ n ∈ u, endsWithTex n = false) := by
  have h := listFiles_split_aux names [] [] (by simp) (by simp)
  simpa [listProjectFiles] using h

/-- C10 witness: the split applied to a concrete directory scan. -/
theorem c10_tex_files_first_witness :
    ∃ t u, listProjectFiles ["a.tex".toList, "b.txt".toList, "c.tex".toList] = t ++ u ∧
      (∀ n ∈ t, endsWithTex n = true) ∧ (∀ n ∈ u, endsWithTex n = false) :=
  c10_tex_files_first ["a.tex".toList, "b.txt".toList, "c.tex".toList]

/-! Helper lemmas about `splitSlash`, `joinSlash` and `pyCommonpath`
(C2). -/

theorem splitSlash_ne_nil (l : Str) : splitSlash l ≠ [] := by
  cases l with
  | nil => simp [splitSlash]
  | cons c rest =>
    by_cases hc : c = '/'
    · simp [splitSlash, hc]
    · simp [splitSlash, hc]

theorem splitSlash_append (a b : Str) :
    splitSlash (a ++ '/' :: b) = splitSlash a ++ splitSlash b := by
  induction a with
  | nil => simp [splitSlash]
  | cons c a ih =>
    by_cases hc : c = '/'
    · simp [splitSlash, hc, ih]
    · simp only [List.cons_append, splitSlash, hc, if_false]
      cases hsa : splitSlash a with
      | nil => exact absurd hsa (splitSlash_ne_nil a)
      | cons s ss => simp [ih, hsa]

theorem splitSlash_no_slash {l : Str} (h : '/' ∉ l) : splitSlash l = [l] := by
  induction l with
  | nil => rfl
  | cons c rest ih =>
    have hc : c ≠ '/' := fun he => h (he ▸ List.mem_cons_self c rest)
    have hr : '/' ∉ rest := fun hm => h (List.mem_cons_of_mem c hm)
    simp [splitSlash, hc, ih hr]

theorem cleanParts_append_seg {p seg : Str} (hs : '/' ∉ seg) (hne : seg ≠ [])
    (hdot : seg ≠ ['.']) :
    cleanParts (p ++ '/' :: seg) = cleanParts p ++ [seg] := by
  unfold cleanParts
  rw [splitSlash_append, List.filter_append, splitSlash_no_slash hs]
  have hfil : List.filter (fun s => if s = [] ∨ s = ['.'] then false else true)
      [seg] = [seg] := by
    simp [hne, hdot]
  rw [hfil]

theorem commonPrefixL_append (l m : List Str) : commonPrefixL l (l ++ m) = l := by
  induction l with
  | nil => cases m <;> rfl
  | cons a l ih => simp [commonPrefixL, ih]

theorem joinSlash_append_singleton {l : List Str} (h : l ≠ []) (s : Str) :
    joinSlash (l ++ [s]) = joinSlash l ++ '/' :: s := by
  induction l with
  | nil => exact absurd rfl h
  | cons a l ih =>
    cases l with
    | nil => rfl
    | cons b l =>
      have ih' := ih (by simp)
      show a ++ '/' :: joinSlash (b :: (l ++ [s])) =
        (a ++ '/' :: joinSlash (b :: l)) ++ '/' :: s
      rw [show b :: (l ++ [s]) = (b :: l) ++ [s] from rfl, ih']
      simp [List.append_assoc]

theorem cleanAbs_ne_nil {p : Str} (h : cleanAbs p) : p ≠ [] := by
  intro he
  rw [he] at h
  exact absurd h.1 (by simp)

theorem commonpath_join {pp seg : Str} (hclean : cleanAbs pp)
    (hne : seg ≠ []) (hs : '/' ∉ seg) (hdot : seg ≠ ['.']) :
    pyCommonpath pp (pp ++ '/' :: seg) = pp := by
  unfold pyCommonpath
  rw [cleanParts_append_seg hs hne hdot, commonPrefixL_append]
  rw [if_pos (by simp [hclean.1])]
  exact hclean.2.symm

/-- Accepted single-entry extraction: with a clean absolute project
path, an entry whose flattened base name sanitizes to the nonempty
good segment `safe` is written under `safe` inside the project
directory. -/
theorem extract_single_accepted (ppath : Str) (dir : FS) (cont fname safe : Str)
    (hclean : cleanAbs ppath) (hlast : ppath.getLast? ≠ some '/')
    (hsan : sanitize_name (basename fname) = some safe)
    (hne : safe.isEmpty = false) :
    extractEntries ppath dir [⟨fname, false, cont, false⟩] =
      some (fsWrite dir safe cont) := by
  have hgood : goodSeg safe := sanitize_goodSeg hsan (by simp [hne])
  have hjoin : osJoin ppath safe = ppath ++ '/' :: safe :=
    osJoin_child (cleanAbs_ne_nil hclean) hlast (sanitize_head hsan).2
  have hcp : pyCommonpath ppath (osJoin ppath safe) = ppath := by
    rw [hjoin]
    exact commonpath_join hclean hgood.1 hgood.2.1 hgood.2.2.1
  simp [extractEntries, hsan, hne, hcp]

/-- C2 counterexample: the claim says an archive entry named
`../../evil.tex` is silently dropped with no file written for it, but
processing that single entry writes the file `evil.tex` into the
project directory. -/
theorem c2_counterexample :
    extractEntries "/r/p".toList []
        [⟨"../../evil.tex".toList, false, "z".toList, false⟩] =
      some [("evil.tex".toList, "z".toList)] := by decide

/-- C2 amended: an archive entry named `../../evil.tex` is not dropped:
it is flattened to its base name, sanitized, and written as `evil.tex`
at the project root — never outside the project directory, since the
written name is a good segment whose join with the project path is a
direct child of it; an entry named `sub/dir/file.tex` is likewise
written as `file.tex` at the project root. -/
theorem c2_entry_flattening (ppath : Str) (dir : FS) (cont : Str)
    (hclean : cleanAbs ppath) (hlast : ppath.getLast? ≠ some '/') :
    extractEntries ppath dir [⟨"../../evil.tex".toList, false, cont, false⟩] =
        some (fsWrite dir "evil.tex".toList cont) ∧
    extractEntries ppath dir [⟨"sub/dir/file.tex".toList, false, cont, false⟩] =
        some (fsWrite dir "file.tex".toList cont) ∧
    osJoin ppath "evil.tex".toList = ppath ++ '/' :: "evil.tex".toList ∧
    osJoin ppath "file.tex".toList = ppath ++ '/' :: "file.tex".toList ∧
    goodSeg "evil.tex".toList ∧ goodSeg "file.tex".toList := by
  refine ⟨?_, ?_, ?_, ?_, ?_, ?_⟩
  · exact extract_single_accepted ppath dir cont _ _ hclean hlast (by decide) (by decide)
  · exact extract_single_accepted ppath dir cont _ _ hclean hlast (by decide) (by decide)
  · exact osJoin_child (cleanAbs_ne_nil hclean) hlast (by decide)
  · exact osJoin_child (cleanAbs_ne_nil hclean) hlast (by decide)
  · exact ⟨by decide, by decide, by decide, by decide⟩
  · exact ⟨by decide, by decide, by decide, by decide⟩

/-- C2 witness: the amended behaviour evaluated at the concrete project
path `/r/p`. -/
theorem c2_entry_flattening_witness :
    extractEntries "/r/p".toList [] [⟨"sub/dir/file.tex".toList, false, "z".toList, false⟩] =
      some [("file.tex".toList, "z".toList)] := by
  have h := c2_entry_flattening "/r/p".toList [] "z".toList
    ⟨by decide, by decide⟩ (by decide)
  rw [h.2.1]; rfl

/-! Helper lemmas for the archive-import theorems (C5, C8). -/

theorem mem_fsWrite {β : Type} {d : List (Str × β)} {k : Str} {v : β} {nc : Str × β}
    (h : nc ∈ fsWrite d k v) : nc ∈ d ∨ nc = (k, v) := by
  induction d with
  | nil =>
    simp only [fsWrite] at h
    exact Or.inr (List.mem_singleton.mp h)
  | cons kv rest ih =>
    obtain ⟨m, c⟩ := kv
    by_cases hm : m = k
    · rw [fsWrite, if_pos hm] at h
      rcases List.mem_cons.mp h with h | h
      · exact Or.inr h
      · exact Or.inl (List.mem_cons_of_mem _ h)
    · rw [fsWrite, if_neg hm] at h
      rcases List.mem_cons.mp h with h | h
      · exact Or.inl (h ▸ List.mem_cons_self _ _)
      · rcases ih h with h | h
        · exact Or.inl (List.mem_cons_of_mem _ h)
        · exact Or.inr h

theorem extract_mem {ppath : Str} : ∀ (es : List ZipEntry) (dir0 dir : FS),
    extractEntries ppath dir0 es = some dir →
    ∀ nc : Str × Str, nc ∈ dir → nc ∈ dir0 ∨
      ∃ e ∈ es, e.isDir = false ∧ e.readFails = false ∧
        sanitize_name (basename e.filename) = some nc.1 ∧ nc.1.isEmpty = false ∧
        nc.2 = e.content := by
  intro es
  induction es with
  | nil =>
    intro dir0 dir h nc hm
    rw [extractEntries] at h
    injection h with h
    exact Or.inl (h ▸ hm)
  | cons e rest ih =>
    intro dir0 dir h nc hm
    rw [extractEntries] at h
    by_cases hd : e.isDir = true
    · rw [if_pos hd] at h
      rcases ih dir0 dir h nc hm with h' | ⟨e', he', hprops⟩
      · exact Or.inl h'
      · exact Or.inr ⟨e', List.mem_cons_of_mem e he', hprops⟩
    · rw [if_neg hd] at h
      cases hsan : sanitize_name (basename e.filename) with
      | none =>
        rw [hsan] at h
        rcases ih dir0 dir h nc hm with h' | ⟨e', he', hprops⟩
        · exact Or.inl h'
        · exact Or.inr ⟨e', List.mem_cons_of_mem e he', hprops⟩
      | some safe =>
        rw [hsan] at h
        simp only at h
        by_cases hse : safe.isEmpty = true
        · rw [if_pos hse] at h
          rcases ih dir0 dir h nc hm with h' | ⟨e', he', hprops⟩
          · exact Or.inl h'
          · exact Or.inr ⟨e', List.mem_cons_of_mem e he', hprops⟩
        · rw [if_neg hse] at h
          by_cases hcp : (pyCommonpath ppath (osJoin ppath safe) == ppath) = true
          · rw [if_pos hcp] at h
            by_cases hrf : e.readFails = true
            · rw [if_pos hrf] at h; cases h
            · rw [if_neg hrf] at h
              rcases ih _ dir h nc hm with h' | ⟨e', he', hprops⟩
              · rcases mem_fsWrite h' with h'' | h''
                · exact Or.inl h''
                · refine Or.inr ⟨e, List.mem_cons_self e rest,
                    Bool.of_not_eq_true hd, Bool.of_not_eq_true hrf, ?_, ?_, ?_⟩
                  · rw [h'']; exact hsan
                  · rw [h'']; exact Bool.of_not_eq_true hse ▸ rfl
                  · rw [h'']
              · exact Or.inr ⟨e', List.mem_cons_of_mem e he', hprops⟩
          · rw [if_neg hcp] at h
            rcases ih dir0 dir h nc hm with h' | ⟨e', he', hprops⟩
            · exact Or.inl h'
            · exact Or.inr ⟨e', List.mem_cons_of_mem e he', hprops⟩

/-- C5: archive import is atomic at project granularity: every run of
`upload_zip` either reports success for a fresh project whose directory
holds only entries accepted by the member loop (flattened, sanitized,
confinement-checked, last write wins), or leaves the store exactly as
it was — in particular, after a failed directory creation, an
unreadable archive, or an exception during extraction, the project
directory does not exist. -/
theorem c5_import_atomic (store : Store) (root fname : Str) (mk : Bool)
    (archive : Option (List ZipEntry)) :
    (∃ project dir entries,
        upload_zip store root fname mk archive =
          (fsWrite store project dir, .uploaded project) ∧
        alookup store project = none ∧ archive = some entries ∧
        ∀ nc : Str × Str, nc ∈ dir →
          ∃ e ∈ entries, e.isDir = false ∧ e.readFails = false ∧
            sanitize_name (basename e.filename) = some nc.1 ∧
            nc.1.isEmpty = false ∧ nc.2 = e.content) ∨
    (∃ r, upload_zip store root fname mk archive = (store, r) ∧
        ∀ p, r ≠ .uploaded p) := by
  unfold upload_zip
  split
  · exact Or.inr ⟨_, rfl, by simp⟩
  split
  · exact Or.inr ⟨_, rfl, by simp⟩
  split
  · exact Or.inr ⟨_, rfl, by simp⟩
  next project hsan =>
    split
    · exact Or.inr ⟨_, rfl, by simp⟩
    split
    · exact Or.inr ⟨_, rfl, by simp⟩
    next hnew =>
      split
      · exact Or.inr ⟨_, rfl, by simp⟩
      split
      · exact Or.inr ⟨_, rfl, by simp⟩
      next entries =>
        split
        · exact Or.inr ⟨_, rfl, by simp⟩
        next dir hext =>
          refine Or.inl ⟨project, dir, entries, rfl, hnew, rfl, fun nc hm => ?_⟩
          rcases extract_mem entries [] dir hext nc hm with h | h
          · cases h
          · exact h

/-- C5 witness: a successful import of `p.zip` holding `main.tex`, and
a rolled-back import where the single entry's write raises. -/
theorem c5_import_atomic_witness :
    (upload_zip [] "/r".toList "p.zip".toList false
        (some [⟨"main.tex".toList, false, "t".toList, false⟩]) =
      ([("p".toList, [("main.tex".toList, "t".toList)])], .uploaded "p".toList)) ∧
    (upload_zip [] "/r".toList "p.zip".toList false
        (some [⟨"main.tex".toList, false, "t".toList, true⟩]) =
      ([], .serverError)) := by
  have h1 := c5_import_atomic [] "/r".toList "p.zip".toList false
    (some [⟨"main.tex".toList, false, "t".toList, false⟩])
  have h2 := c5_import_atomic [] "/r".toList "p.zip".toList false
    (some [⟨"main.tex".toList, false, "t".toList, true⟩])
  exact ⟨by decide, by decide⟩

/-- C8 counterexample: the claim says an archive whose entries are all
skipped does not report success, but a valid zip whose single entry
`!!!` sanitizes to the empty name is imported successfully, producing
an empty project directory. -/
theorem c8_counterexample :
    upload_zip [] "/r".toList "p.zip".toList false
        (some [⟨"!!!".toList, false, "x".toList, false⟩]) =
      ([("p".toList, [])], .uploaded "p".toList) := by decide

/-- An entry the member loop passes over without writing. -/
def entrySkips (ppath : Str) (e : ZipEntry) : Prop :=
  e.isDir = true ∨ sanitize_name (basename e.filename) = none ∨
  ∃ safe, sanitize_name (basename e.filename) = some safe ∧
    (safe.isEmpty = true ∨
      (safe.isEmpty = false ∧
        (pyCommonpath ppath (osJoin ppath safe) == ppath) = false))

theorem extract_all_skipped {ppath : Str} : ∀ (es : List ZipEntry) (dir : FS),
    (∀ e ∈ es, entrySkips ppath e) → extractEntries ppath dir es = some dir := by
  intro es
  induction es with
  | nil => intro dir _; rfl
  | cons e rest ih =>
    intro dir h
    have he := h e (List.mem_cons_self e rest)
    have hrest : ∀ e' ∈ rest, entrySkips ppath e' :=
      fun e' h' => h e' (List.mem_cons_of_mem e h')
    rw [extractEntries]
    rcases he with hd | hsan | ⟨safe, hsan, hrem⟩
    · rw [if_pos hd]
      exact ih dir hrest
    · by_cases hd : e.isDir = true
      · rw [if_pos hd]; exact ih dir hrest
      · rw [if_neg hd, hsan]
        exact ih dir hrest
    · by_cases hd : e.isDir = true
      · rw [if_pos hd]; exact ih dir hrest
      · rw [if_neg hd, hsan]
        simp only
        rcases hrem with hse | ⟨hse, hcp⟩
        · rw [if_pos hse]
          exact ih dir hrest
        · rw [if_neg (by simp [hse]), if_neg (by simp [hcp])]
          exact ih dir hrest

/-- C8 amended: when the uploaded bytes are not a recognized zip
container the import fails with an error and the store is unchanged
(the created directory is removed again); but an archive whose entries
are all skipped does NOT fail — it reports success and leaves an empty
project directory. -/
theorem c8_invalid_archive (store : Store) (root fname project : Str)
    (hf1 : fname.isEmpty = false) (hf2 : endsWithZip fname = true)
    (hsan : sanitize_name (splitextBase fname) = some project)
    (hpne : project.isEmpty = false) (hnew : alookup store project = none) :
    upload_zip store root fname false none = (store, .serverError) ∧
    ∀ entries, (∀ e ∈ entries, entrySkips (osJoin root project) e) →
      upload_zip store root fname false (some entries) =
        (fsWrite store project [], .uploaded project) := by
  constructor
  · unfold upload_zip
    rw [if_neg (by simp [hf1]), if_neg (by simp [hf2]), hsan]
    simp only
    rw [if_neg (by simp [hpne]), hnew]
    rfl
  · intro entries hskip
    unfold upload_zip
    rw [if_neg (by simp [hf1]), if_neg (by simp [hf2]), hsan]
    simp only
    rw [if_neg (by simp [hpne]), hnew]
    simp only [Bool.false_eq_true, if_false]
    rw [extract_all_skipped entries [] hskip]

/-- C8 witness: the amended behaviour at `p.zip`: an unreadable
container errors with the store unchanged, and an archive holding only
a directory entry imports successfully as an empty project. -/
theorem c8_invalid_archive_witness :
    upload_zip [] "/r".toList "p.zip".toList false none = ([], .serverError) ∧
    upload_zip [] "/r".toList "p.zip".toList false
        (some [⟨"d/".toList, true, [], false⟩]) =
      (fsWrite [] "p".toList [], .uploaded "p".toList) := by
  have h := c8_invalid_archive [] "/r".toList "p.zip".toList "p".toList
    (by decide) (by decide) (by decide) (by decide) (by decide)
  exact ⟨h.1, h.2 [⟨"d/".toList, true, [], false⟩]
    (fun e he => by
      rw [List.mem_singleton.mp he]
      exact Or.inl rfl)⟩

/-- An oracle for the C7 counterexample: the `git config user.name`
invocation exits 5, every other invocation exits 0. -/
def execIdentityFails : List Str → StepOut :=
  fun cmd => if cmd = cfgNameCmd "alice".toList then ⟨5, [], []⟩ else ⟨0, [], []⟩

/-- C7 counterexample: the claim says a non-zero identity step is
recorded (but non-fatal); in this run the identity command exits 5, the
publish still succeeds, yet no record of the identity command appears
in the result's steps — its outcome is discarded, not recorded. -/
theorem c7_counterexample :
    (run_git_commands true (some ⟨"h".toList, "alice".toList, "k".toList⟩)
        "p".toList execIdentityFails).ok = true ∧
    (execIdentityFails (cfgNameCmd "alice".toList)).rc = 5 ∧
    StepRec.ran (cfgNameCmd "alice".toList) 5 [] [] ∉
      (run_git_commands true (some ⟨"h".toList, "alice".toList, "k".toList⟩)
        "p".toList execIdentityFails).steps := by
  refine ⟨by decide, by decide, by decide⟩

/-- C7 amended: the publish result's `ok` flag is true iff the final
push's exit code is 0 whenever the push runs; the stage, commit and
remote-add results are recorded in order and are non-fatal, while the
identity and remote-removal commands are executed with their results
discarded; a failing init (when no `.git` exists) aborts the sequence
before the push with only the init record in steps. -/
theorem c7_publish_ok_iff_push (hasGit : Bool) (c : GitCfg) (pname : Str)
    (exec : List Str → StepOut)
    (hk : c.private_key_path ≠ []) (hh : c.host ≠ []) (hu : c.username ≠ []) :
    (hasGit = false → (exec initCmd).rc ≠ 0 →
      run_git_commands hasGit (some c) pname exec =
        ⟨false, [recordStep exec initCmd]⟩) ∧
    (hasGit = true ∨ (exec initCmd).rc = 0 →
      (run_git_commands hasGit (some c) pname exec).ok = ((exec pushCmd).rc == 0) ∧
      ∃ pre, (run_git_commands hasGit (some c) pname exec).steps =
        pre ++ [recordStep exec addCmd, recordStep exec commitCmd,
          recordStep exec (addRemoteCmd c pname), recordStep exec pushCmd]) := by
  unfold run_git_commands
  dsimp only
  rw [if_neg hk, if_neg (by rintro (h | h); exacts [hh h, hu h])]
  constructor
  · rintro rfl hinit
    rw [if_neg (by simp), if_pos hinit]
  · rintro (rfl | hinit)
    · rw [if_pos rfl]
      exact ⟨rfl, [], rfl⟩
    · cases hasGit with
      | true =>
        rw [if_pos rfl]
        exact ⟨rfl, [], rfl⟩
      | false =>
        rw [if_neg (by simp), if_neg (by simp [hinit])]
        exact ⟨rfl, [recordStep exec initCmd], rfl⟩

/-- C7 witness: with every command exiting 0 and no prior `.git`, the
publish reports `ok` and records init, stage, commit, remote-add and
push. -/
theorem c7_publish_ok_iff_push_witness :
    (run_git_commands false (some ⟨"h".toList, "alice".toList, "k".toList⟩)
        "p".toList (fun _ => ⟨0, [], []⟩)).ok = ((0 : Int) == 0) ∧
    ∃ pre, (run_git_commands false (some ⟨"h".toList, "alice".toList, "k".toList⟩)
        "p".toList (fun _ => ⟨0, [], []⟩)).steps =
      pre ++ [recordStep (fun _ => ⟨0, [], []⟩) addCmd,
        recordStep (fun _ => ⟨0, [], []⟩) commitCmd,
        recordStep (fun _ => ⟨0, [], []⟩)
          (addRemoteCmd ⟨"h".toList, "alice".toList, "k".toList⟩ "p".toList),
        recordStep (fun _ => ⟨0, [], []⟩) pushCmd] :=
  (c7_publish_ok_iff_push false ⟨"h".toList, "alice".toList, "k".toList⟩
    "p".toList (fun _ => ⟨0, [], []⟩) (by decide) (by decide) (by decide)).2
    (Or.inr rfl)
